import Mathlib

/-!
Verification of the AWS-Quiz-SAA-C03 repository against its specification.

The embedding below translates the Python source (`models.py`, `app.py`) into
Lean definitions:

* machine strings are `List Char` (built from `String.toList` on literals);
* timestamps are modelled in whole days as `ℤ` (the code only ever adds
  `timedelta(days = n)` to `datetime.now()`);
* Python floats are modelled as exact rationals `ℚ`;
* the SQLite store is modelled as explicit state (functions `ℕ → Option _`),
  and each handler is a pure function from its inputs and the prior state to
  a response and the new state.
-/

namespace AWSQuiz

/-- Python's `int()` on a real value: truncation toward zero. -/
def pyInt (q : ℚ) : ℤ :=
  if 0 ≤ q then ⌊q⌋ else ⌈q⌉

/-- Row of the `question_stats` table (models.py, `init_db`):
counters, timestamps and the SM-2 scheduling fields. -/
structure ReviewStats where
  times_correct : ℕ
  times_wrong : ℕ
  last_answered : ℤ
  next_review : ℤ
  ease_factor : ℚ
  interval_days : ℤ
deriving Repr, DecidableEq

/-- Row of the append-only `answer_history` table. -/
structure AnswerEvent where
  question_id : ℕ
  answer_given : List Char
  is_correct : Bool
  answered_at : ℤ
deriving Repr, DecidableEq

/-- The stats part of `record_answer` (models.py lines 136-203): given the
prior `question_stats` row (or `none` if the question was never answered) and
the correctness of the new answer, produce the updated row.  Mirrors the
source: creation branch with ease 2.5, else the SM-2-style update; `int(...)`
is `pyInt`, `timedelta(days = interval_days)` adds `interval_days` to the
current day. -/
def record_answer_stats (prior : Option ReviewStats) (is_correct : Bool)
    (now : ℤ) : ReviewStats :=
  match prior with
  | none =>
      let ease_factor : ℚ := 2.5
      let interval_days : ℤ := if is_correct then 1 else 0
      { times_correct := if is_correct then 1 else 0
        times_wrong := if is_correct then 0 else 1
        last_answered := now
        next_review := now + interval_days
        ease_factor := ease_factor
        interval_days := interval_days }
  | some stats =>
      let ease_factor := stats.ease_factor
      let interval_days := stats.interval_days
      let interval_days :=
        if is_correct then
          if interval_days = 0 then 1
          else if interval_days = 1 then 3
          else pyInt ((interval_days : ℚ) * ease_factor)
        else 0
      let ease_factor :=
        if is_correct then min (ease_factor + 0.1) 3.0
        else max (ease_factor - 0.2) 1.3
      { times_correct := stats.times_correct + (if is_correct then 1 else 0)
        times_wrong := stats.times_wrong + (if is_correct then 0 else 1)
        last_answered := now
        next_review := now + interval_days
        ease_factor := ease_factor
        interval_days := interval_days }

/-- The history part of `record_answer`: the row appended to
`answer_history`. -/
def record_answer_event (question_id : ℕ) (answer_given : List Char)
    (is_correct : Bool) (now : ℤ) : AnswerEvent :=
  { question_id := question_id
    answer_given := answer_given
    is_correct := is_correct
    answered_at := now }

/-- Folding a sequence of answer events (correctness flag and time) through
the scheduler, starting from a question with no stats record. -/
def applyAnswers (events : List (Bool × ℤ)) : Option ReviewStats :=
  events.foldl (fun acc e => some (record_answer_stats acc e.1 e.2)) none

/-- Python's `round()` applied to an exact rational: round half to even. -/
def roundHalfEven (q : ℚ) : ℤ :=
  if Int.fract q < 1 / 2 then ⌊q⌋
  else if 1 / 2 < Int.fract q then ⌊q⌋ + 1
  else if 2 ∣ ⌊q⌋ then ⌊q⌋ else ⌊q⌋ + 1

/-- Python's `round(q, 1)`: one decimal digit. -/
def round1 (q : ℚ) : ℚ := (roundHalfEven (q * 10) : ℚ) / 10

/-- `total_answers` of `get_dashboard_stats` (models.py lines 217-220):
the size of the `answer_history` log. -/
def total_answers (log : List AnswerEvent) : ℕ := log.length

/-- `correct_answers` of `get_dashboard_stats` (models.py lines 222-225):
the number of history rows with `is_correct = 1`. -/
def correct_answers (log : List AnswerEvent) : ℕ :=
  (log.filter (fun e => e.is_correct)).length

/-- The `accuracy` field of `get_dashboard_stats` (models.py line 268):
`round(correct_answers / total_answers * 100, 1) if total_answers > 0 else 0`. -/
def accuracy (log : List AnswerEvent) : ℚ :=
  if 0 < total_answers log then
    round1 ((correct_answers log : ℚ) / (total_answers log : ℚ) * 100)
  else 0

/-- A row of the `questions` table with the fields the handlers consult
(`topic`, `community_vote` and `explanation` are never read by the modelled
session logic). -/
structure Question where
  id : ℕ
  question_number : ℕ
  question_text : List Char
  options : List (Char × List Char)
  correct_answer : List Char
  tags : List (List Char)
deriving Repr, DecidableEq

/-- `record_answer` (models.py lines 136-203) against the stores: appends a
history row and creates or updates the `question_stats` row. -/
def record_answer (rstore : ℕ → Option ReviewStats) (question_id : ℕ)
    (answer_given : List Char) (is_correct : Bool) (now : ℤ) :
    (ℕ → Option ReviewStats) × AnswerEvent :=
  (fun qid => if qid = question_id
      then some (record_answer_stats (rstore question_id) is_correct now)
      else rstore qid,
   record_answer_event question_id answer_given is_correct now)

/-- One entry of `session['answers']` (app.py lines 146-151). -/
structure AnswerEntry where
  question_number : ℕ
  given : List Char
  correct : List Char
  is_correct : Bool
deriving Repr, DecidableEq

/-- The Flask session dict as the API routes use it (app.py lines 72-77). -/
structure SessionState where
  questions : List ℕ
  current_index : ℕ
  score : ℕ
  answers : List AnswerEntry
  tags : Option (List (List Char))
deriving Repr, DecidableEq

/-- JSON values as `request.get_json()` delivers them; the fragment the
modelled routes consult (objects, booleans and non-integral numbers are not
read by them). -/
inductive JVal where
  | jnull : JVal
  | jint : ℤ → JVal
  | jstr : List Char → JVal
  | jlist : List JVal → JVal

/-- Python's `data.get(key, default)`: the stored value, or the default when
the key is absent (`jnull`). -/
def JVal.getD (v dflt : JVal) : JVal :=
  match v with
  | .jnull => dflt
  | v => v

/-- The error responses of the API routes. -/
inductive ApiError where
  | invalidJson : ApiError
  | invalidCount : ApiError
  | invalidFilter : ApiError
  | invalidTags : ApiError
  | noQuestions : ApiError
  | noActiveSession : ApiError
  | invalidAnswer : ApiError
  | sessionComplete : ApiError
  | questionNotFound : ApiError
deriving Repr, DecidableEq

/-- `VALID_FILTERS` (app.py line 14). -/
def VALID_FILTERS : List (List Char) :=
  [ "all".toList, "new".toList, "wrong".toList, "due".toList]

/-- The JSON body of a successful `/api/start-session` response
(app.py lines 79-83). -/
structure StartDescriptor where
  total : ℕ
  filter : List Char
  tags : Option (List (List Char))
deriving Repr, DecidableEq

/-- The tail of `start_session` after input validation (app.py lines 67-83):
reject when selection matched nothing, else build the session state and the
descriptor. -/
def start_session_go (fm : List Char) (tags : Option (List (List Char)))
    (selected : List Question) :
    Except ApiError (SessionState × StartDescriptor) :=
  if selected.isEmpty then .error .noQuestions
  else .ok
    ({ questions := selected.map (fun q => q.id)
       current_index := 0
       score := 0
       answers := []
       tags := tags },
     { total := selected.length, filter := fm, tags := tags })

/-- `start_session` (app.py lines 46-83).  `countJ`, `filterJ`, `tagsJ` are
`data.get('count')`, `data.get('filter')`, `data.get('tags')`, with `jnull`
standing for an absent key; `selected` is what `get_questions_for_session`
returned.  On error no session state is produced; on success the new session
state and the descriptor `{total, filter, tags}` are. -/
def start_session (countJ filterJ tagsJ : JVal) (selected : List Question) :
    Except ApiError (SessionState × StartDescriptor) :=
  -- count = data.get('count', 10); integer between 1 and 100
  match countJ.getD (.jint 10) with
  | .jint n =>
      if n < 1 ∨ 100 < n then .error .invalidCount
      else
        -- filter_mode = data.get('filter', 'all'); must be in VALID_FILTERS
        match filterJ.getD (.jstr "all".toList) with
        | .jstr fm =>
            if fm ∉ VALID_FILTERS then .error .invalidFilter
            else
              -- tags = data.get('tags'); optional list of strings,
              -- empty strings dropped, empty list collapsed to None
              match tagsJ with
              | .jnull => start_session_go fm none selected
              | .jlist xs =>
                  if xs.all (fun x => match x with | .jstr _ => true | _ => false) then
                    let ts := (xs.filterMap
                      (fun x => match x with | .jstr s => some s | _ => none)).filter
                        (fun s => !s.isEmpty)
                    start_session_go fm (if ts.isEmpty then none else some ts) selected
                  else .error .invalidTags
              | _ => .error .invalidTags
        | _ => .error .invalidFilter
  | _ => .error .invalidCount

/-- Responses of `/api/question` (app.py lines 85-113): an error, the
terminal `{'complete': True, 'score': s}` signal, or the question payload
`{index, total, question_number, question_text, options, tags}` — the
correct answer is withheld. -/
inductive QuestionResp where
  | error : ApiError → QuestionResp
  | complete : ℕ → QuestionResp
  | question : ℕ → ℕ → ℕ → List Char → List (Char × List Char) →
      List (List Char) → QuestionResp
deriving Repr, DecidableEq

/-- `get_current_question` (app.py lines 85-113): reads the session and the
question store; the session state after the call is returned alongside the
response (the handler performs no writes). -/
def get_current_question (store : ℕ → Option Question)
    (sess : Option SessionState) : QuestionResp × Option SessionState :=
  match sess with
  | none => (.error .noActiveSession, none)
  | some s =>
      if s.questions.length ≤ s.current_index then
        (.complete s.score, some s)
      else
        match store (s.questions.getD s.current_index 0) with
        | none => (.error .questionNotFound, some s)
        | some q =>
            (.question (s.current_index + 1) s.questions.length
              q.question_number q.question_text q.options q.tags, some s)

/-- Responses of `/api/answer` (app.py lines 160-166): an error, or the
payload `{is_correct, correct_answer, score, has_next}` (the `explanation`
field, a presentational lookup, is not modelled). -/
inductive SubmitResp where
  | error : ApiError → SubmitResp
  | ok : Bool → List Char → ℕ → Bool → SubmitResp
deriving Repr, DecidableEq

/-- Python's `str.isalpha`: non-empty and all letters (modelled over the
ASCII letters the quiz answers use). -/
def pyIsAlpha (s : List Char) : Bool :=
  !s.isEmpty && s.all Char.isAlpha

/-- Everything `submit_answer` produces: the response, the session
afterwards, the review-stats store afterwards, and the history rows
appended. -/
structure SubmitOutcome where
  resp : SubmitResp
  sess : Option SessionState
  rstore : ℕ → Option ReviewStats
  events : List AnswerEvent

/-- `submit_answer` (app.py lines 115-166): answer-shape validation, then
correctness by comparison with the stored correct answer, recording, and
session advance.  `answerJ` is `data.get('answer')`; a missing question row
makes the Python handler raise before any write, modelled as an error
outcome with no state change. -/
def submit_answer (store : ℕ → Option Question) (rstore : ℕ → Option ReviewStats)
    (sess : Option SessionState) (answerJ : JVal) (now : ℤ) : SubmitOutcome :=
  match sess with
  | none => ⟨.error .noActiveSession, none, rstore, []⟩
  | some s =>
      match answerJ with
      | .jstr answer =>
          if ¬ (pyIsAlpha answer = true ∧ answer.length ≤ 5) then
            ⟨.error .invalidAnswer, some s, rstore, []⟩
          else if s.questions.length ≤ s.current_index then
            ⟨.error .sessionComplete, some s, rstore, []⟩
          else
            match store (s.questions.getD s.current_index 0) with
            | none => ⟨.error .questionNotFound, some s, rstore, []⟩
            | some q =>
                let correct_answer := q.correct_answer
                let is_correct := answer == correct_answer
                let rec_out := record_answer rstore q.id answer is_correct now
                let score := if is_correct then s.score + 1 else s.score
                let s2 : SessionState :=
                  { s with
                    score := score
                    answers := s.answers ++
                      [⟨q.question_number, answer, correct_answer, is_correct⟩]
                    current_index := s.current_index + 1 }
                ⟨.ok is_correct correct_answer score
                    (decide (s2.current_index < s2.questions.length)),
                  some s2, rec_out.1, [rec_out.2]⟩
      | _ => ⟨.error .invalidAnswer, some s, rstore, []⟩

/-- `session_results` (app.py lines 168-178). -/
structure ResultsResp where
  total : ℕ
  score : ℕ
  answers : List AnswerEntry
deriving Repr, DecidableEq

/-- The `/api/session-results` route (app.py lines 168-178). -/
def session_results (sess : Option SessionState) : Except ApiError ResultsResp :=
  match sess with
  | none => .error .noActiveSession
  | some s => .ok ⟨s.questions.length, s.score, s.answers⟩

/-- Outcome of submitting a sequence of answers one after the other. -/
structure RunOutcome where
  sess : Option SessionState
  rstore : ℕ → Option ReviewStats
  resps : List SubmitResp

/-- Submit each answer of `ans` in turn through `submit_answer`. -/
def run_answers (store : ℕ → Option Question) (rstore : ℕ → Option ReviewStats)
    (sess : Option SessionState) (ans : List (List Char)) (now : ℤ) :
    RunOutcome :=
  match ans with
  | [] => ⟨sess, rstore, []⟩
  | a :: rest =>
      let o := submit_answer store rstore sess (.jstr a) now
      let t := run_answers store o.rstore o.sess rest now
      ⟨t.sess, t.rstore, o.resp :: t.resps⟩

/-- The result entry `submit_answer` appends for question `q` and submitted
answer `a` (app.py lines 146-151). -/
def expectedEntry (q : Question) (a : List Char) : AnswerEntry :=
  ⟨q.question_number, a, q.correct_answer, a == q.correct_answer⟩

/-- Number of submissions judged correct when answering `qs` with `ans`
position by position. -/
def nCorrect (qs : List Question) (ans : List (List Char)) : ℕ :=
  (List.zipWith (fun q a => a == q.correct_answer) qs ans).count true

/-- Helper for the `%` wildcard of LIKE: does the continuation match some
suffix of the string? -/
def likeSuffix (m : List Char → Bool) : List Char → Bool
  | [] => m []
  | l@(_ :: s2) => m l || likeSuffix m s2

/-- SQLite `LIKE` pattern matching over character lists: `%` matches any
sequence, `_` any single character, any other pattern character itself. -/
def likeRaw : List Char → List Char → Bool
  | [], s => s.isEmpty
  | c :: p, s =>
      if c = '%' then likeSuffix (fun s2 => likeRaw p s2) s
      else
        match s with
        | [] => false
        | d :: s2 => (if c = '_' then true else c == d) && likeRaw p s2

/-- SQLite's default `LIKE` operator: ASCII-case-insensitive (the code never
issues `PRAGMA case_sensitive_like`), modelled by lowercasing both sides. -/
def sqliteLike (pat s : List Char) : Bool :=
  likeRaw (pat.map Char.toLower) (s.map Char.toLower)

/-- JSON string escaping as `json.dumps` applies it to these tags (backslash
and double quote; control characters do not occur in AWS service names). -/
def jsonEscape : List Char → List Char
  | [] => []
  | c :: cs => (if c = '\\' ∨ c = '"' then ['\\', c] else [c]) ++ jsonEscape cs

/-- Body of `json.dumps` on a list of strings: quoted chunks joined by the
default `", "` separator. -/
def jsonBody : List (List Char) → List Char
  | [] => []
  | g :: gs => ('"' :: jsonEscape g ++ ['"']) ++
      (if gs.isEmpty then [] else [',', ' ']) ++ jsonBody gs

/-- `json.dumps(tags)`: the serialized `tags` column as `import_questions.py`
stores it (line 92). -/
def jsonTags (tags : List (List Char)) : List Char :=
  '[' :: jsonBody tags ++ [']']

/-- The tag filter of `get_questions_for_session` (models.py lines 94-98) and
`get_filter_counts` (models.py lines 279-284): the serialized tags column
must LIKE-match the pattern `'%"tag"%'` for at least one requested tag
(logical OR across the requested tags). -/
def tag_filter_match (tags : List (List Char)) (qtags : List (List Char)) :
    Bool :=
  tags.any (fun t => sqliteLike ('%' :: '"' :: (t ++ ['"', '%'])) (jsonTags qtags))

/-- Tag strings whose characters all behave literally both in the serialized
column and in the LIKE pattern: ASCII letters and digits. -/
@[reducible] def goodTag (t : List Char) : Prop := ∀ c ∈ t, c.isAlphanum = true

/-! ### Theorems -/

/-- Helper: the update branch of `record_answer_stats` written as an explicit
record, for rewriting. -/
theorem record_answer_stats_some (t : ReviewStats) (b : Bool) (now : ℤ) :
    record_answer_stats (some t) b now =
      { times_correct := t.times_correct + (if b then 1 else 0)
        times_wrong := t.times_wrong + (if b then 0 else 1)
        last_answered := now
        next_review := now + (if b then
            (if t.interval_days = 0 then 1 else if t.interval_days = 1 then 3
             else pyInt ((t.interval_days : ℚ) * t.ease_factor)) else 0)
        ease_factor := if b then min (t.ease_factor + 0.1) 3.0
          else max (t.ease_factor - 0.2) 1.3
        interval_days := if b then
            (if t.interval_days = 0 then 1 else if t.interval_days = 1 then 3
             else pyInt ((t.interval_days : ℚ) * t.ease_factor)) else 0 } := rfl

/-- Helper: a single scheduler step keeps the ease factor in `[1.3, 3.0]`,
whatever the prior state (fresh records start at 2.5). -/
theorem ease_step (prior : Option ReviewStats)
    (hp : ∀ t, prior = some t → 13 / 10 ≤ t.ease_factor ∧ t.ease_factor ≤ 3)
    (b : Bool) (now : ℤ) :
    13 / 10 ≤ (record_answer_stats prior b now).ease_factor ∧
      (record_answer_stats prior b now).ease_factor ≤ 3 := by
  cases prior with
  | none => norm_num [record_answer_stats]
  | some t =>
      obtain ⟨h1, h2⟩ := hp t rfl
      cases b with
      | false =>
          have he : (record_answer_stats (some t) false now).ease_factor
              = max (t.ease_factor - 0.2) 1.3 := by
            simp [record_answer_stats_some]
          rw [he, show (13 : ℚ) / 10 = 1.3 by norm_num]
          exact ⟨le_max_right _ _, max_le (by linarith) (by norm_num)⟩
      | true =>
          have he : (record_answer_stats (some t) true now).ease_factor
              = min (t.ease_factor + 0.1) 3.0 := by
            simp [record_answer_stats_some]
          rw [he]
          refine ⟨le_min (by linarith) (by norm_num), ?_⟩
          apply min_le_of_right_le (by norm_num)

/-- Helper: folding scheduler steps preserves the ease-factor bounds. -/
theorem ease_fold (events : List (Bool × ℤ)) :
    ∀ prior : Option ReviewStats,
      (∀ t, prior = some t → 13 / 10 ≤ t.ease_factor ∧ t.ease_factor ≤ 3) →
      ∀ s, events.foldl (fun acc e => some (record_answer_stats acc e.1 e.2))
          prior = some s →
        13 / 10 ≤ s.ease_factor ∧ s.ease_factor ≤ 3 := by
  induction events with
  | nil =>
      intro prior hp s h
      exact hp s (by simpa using h)
  | cons e rest ih =>
      intro prior hp s h
      refine ih (some (record_answer_stats prior e.1 e.2)) ?_ s (by simpa using h)
      intro t ht
      cases Option.some.inj ht
      exact ease_step prior hp e.1 e.2

/-- C1: on an existing stats record, the scheduler's update follows the
SM-2-style transition: on a correct answer the new `interval_days` is 1 if the
old one was 0, 3 if it was 1, and otherwise `⌊old interval × ease⌋`, with the
ease factor becoming `min (ease + 0.1) 3.0` and `times_correct` incremented;
on an incorrect answer `interval_days` becomes 0, the ease factor becomes
`max (ease − 0.2) 1.3` and `times_wrong` is incremented; in both cases
`next_review = now + interval_days` (in days). -/
theorem record_answer_update_spec (s : ReviewStats) (now : ℤ)
    (hi : 0 ≤ s.interval_days)
    (he : 13 / 10 ≤ s.ease_factor) :
    ((record_answer_stats (some s) true now).interval_days =
        (if s.interval_days = 0 then 1 else if s.interval_days = 1 then 3
         else ⌊(s.interval_days : ℚ) * s.ease_factor⌋) ∧
      (record_answer_stats (some s) true now).ease_factor =
        min (s.ease_factor + 1 / 10) 3 ∧
      (record_answer_stats (some s) true now).times_correct =
        s.times_correct + 1 ∧
      (record_answer_stats (some s) true now).times_wrong = s.times_wrong ∧
      (record_answer_stats (some s) true now).next_review =
        now + (record_answer_stats (some s) true now).interval_days) ∧
    ((record_answer_stats (some s) false now).interval_days = 0 ∧
      (record_answer_stats (some s) false now).ease_factor =
        max (s.ease_factor - 1 / 5) (13 / 10) ∧
      (record_answer_stats (some s) false now).times_wrong =
        s.times_wrong + 1 ∧
      (record_answer_stats (some s) false now).times_correct = s.times_correct ∧
      (record_answer_stats (some s) false now).next_review = now) := by
  have hq : (0 : ℚ) ≤ (s.interval_days : ℚ) * s.ease_factor := by
    apply mul_nonneg
    · exact_mod_cast hi
    · linarith
  constructor
  · refine ⟨?_, ?_, ?_, ?_, ?_⟩ <;>
      norm_num [record_answer_stats, pyInt, hq]
  · refine ⟨?_, ?_, ?_, ?_, ?_⟩ <;>
      norm_num [record_answer_stats]

/-- Witness for C1 at a concrete state: interval 4, ease 2.5, a correct
answer multiplies the interval (`⌊4 × 2.5⌋ = 10`). -/
theorem record_answer_update_spec_witness :
    (record_answer_stats
        (some ⟨2, 1, 0, 0, 5 / 2, 4⟩) true 7).interval_days = 10 ∧
      (record_answer_stats
        (some ⟨2, 1, 0, 0, 5 / 2, 4⟩) true 7).ease_factor = 13 / 5 := by
  have h := record_answer_update_spec ⟨2, 1, 0, 0, 5 / 2, 4⟩ 7
    (by norm_num) (by norm_num)
  refine ⟨?_, ?_⟩
  · rw [h.1.1]; norm_num
  · rw [h.1.2.1]; norm_num

/-- C2: the first answer to a question creates a stats record with
ease 2.5, interval 1 on a correct answer and 0 otherwise, counters
1/0 or 0/1 accordingly, and `next_review = now + interval_days`. -/
theorem record_answer_first_spec (b : Bool) (now : ℤ) :
    (record_answer_stats none b now).ease_factor = 5 / 2 ∧
    (record_answer_stats none b now).interval_days = (if b then 1 else 0) ∧
    (record_answer_stats none b now).times_correct = (if b then 1 else 0) ∧
    (record_answer_stats none b now).times_wrong = (if b then 0 else 1) ∧
    (record_answer_stats none b now).next_review =
      now + (record_answer_stats none b now).interval_days ∧
    (record_answer_stats none b now).last_answered = now := by
  cases b <;> norm_num [record_answer_stats]

/-- C3: over every sequence of answers applied from the no-stats state, the
ease factor stays in the domain `[1.3, 3.0]`. -/
theorem ease_factor_bounds (events : List (Bool × ℤ)) (s : ReviewStats)
    (h : applyAnswers events = some s) :
    13 / 10 ≤ s.ease_factor ∧ s.ease_factor ≤ 3 :=
  ease_fold events none (by intro t ht; cases ht) s h

/-- Witness for C3 on the one-event sequence. -/
theorem ease_factor_bounds_witness :
    13 / 10 ≤ (record_answer_stats none true 0).ease_factor ∧
      (record_answer_stats none true 0).ease_factor ≤ 3 :=
  ease_factor_bounds [(true, 0)] (record_answer_stats none true 0) rfl

/-- C7: the dashboard accuracy is 0 on an empty answer log, and otherwise
`round(correct / total × 100, 1)`, the division being taken only when the
total is positive. -/
theorem accuracy_guarded (log : List AnswerEvent) :
    (log = [] → accuracy log = 0) ∧
    (log ≠ [] →
      0 < total_answers log ∧
      accuracy log =
        round1 ((correct_answers log : ℚ) / (total_answers log : ℚ) * 100)) := by
  constructor
  · intro h
    subst h
    simp [accuracy, total_answers]
  · intro h
    have hpos : 0 < log.length := List.length_pos.mpr h
    exact ⟨hpos, by simp [accuracy, total_answers, hpos]⟩

/-- Witness for C7: empty log gives 0; a single correct answer gives 100. -/
theorem accuracy_guarded_witness :
    accuracy [] = 0 ∧ accuracy [⟨1, "A".toList, true, 0⟩] = 100 := by
  constructor
  · exact (accuracy_guarded []).1 rfl
  · have h := (accuracy_guarded [⟨1, "A".toList, true, 0⟩]).2 (by simp)
    rw [h.2]
    norm_num [correct_answers, total_answers, round1, roundHalfEven, Int.fract]

/-- C9: `get_current_question` leaves the session state unchanged, so
repeated calls return the same response; and once the position has reached
the session length, every call returns the terminal complete signal with the
final score rather than an error. -/
theorem current_question_idempotent (store : ℕ → Option Question)
    (sess : Option SessionState) :
    (get_current_question store sess).2 = sess ∧
    (get_current_question store (get_current_question store sess).2).1 =
      (get_current_question store sess).1 ∧
    (∀ s, sess = some s → s.questions.length ≤ s.current_index →
      (get_current_question store sess).1 = .complete s.score) := by
  have hframe : (get_current_question store sess).2 = sess := by
    cases sess with
    | none => rfl
    | some s =>
        simp only [get_current_question]
        split
        · rfl
        · split <;> rfl
  refine ⟨hframe, by rw [hframe], ?_⟩
  intro s hs hlen
  subst hs
  simp [get_current_question, hlen]

/-- Witness for C9: an exhausted one-question-less session reports complete
with its score. -/
theorem current_question_idempotent_witness :
    (get_current_question (fun _ => none) (some ⟨[], 0, 0, [], none⟩)).1 =
      .complete 0 :=
  (current_question_idempotent (fun _ => none)
      (some ⟨[], 0, 0, [], none⟩)).2.2 ⟨[], 0, 0, [], none⟩ rfl (by decide)

/-- C10: with an active session, a submission whose answer is not a purely
alphabetic string of length at most 5 (non-string, empty, containing
non-letters, or longer than 5) is rejected with the invalid-answer error,
with no answer event recorded and no session or review state mutated. -/
theorem submit_invalid_answer_rejected (store : ℕ → Option Question)
    (rstore : ℕ → Option ReviewStats) (s : SessionState) (answerJ : JVal)
    (now : ℤ)
    (h : ∀ a, answerJ = .jstr a → ¬ (pyIsAlpha a = true ∧ a.length ≤ 5)) :
    (submit_answer store rstore (some s) answerJ now).resp =
      .error .invalidAnswer ∧
    (submit_answer store rstore (some s) answerJ now).sess = some s ∧
    (submit_answer store rstore (some s) answerJ now).rstore = rstore ∧
    (submit_answer store rstore (some s) answerJ now).events = [] := by
  cases answerJ with
  | jnull => exact ⟨rfl, rfl, rfl, rfl⟩
  | jint n => exact ⟨rfl, rfl, rfl, rfl⟩
  | jlist xs => exact ⟨rfl, rfl, rfl, rfl⟩
  | jstr a =>
      have ha := h a rfl
      simp only [submit_answer]
      rw [if_pos ha]
      exact ⟨rfl, rfl, rfl, rfl⟩

/-- Witness for C10: the submission "A1" (digit inside) is rejected. -/
theorem submit_invalid_answer_rejected_witness :
    (submit_answer (fun _ => none) (fun _ => none)
        (some ⟨[1], 0, 0, [], none⟩) (.jstr "A1".toList) 0).resp =
      .error .invalidAnswer :=
  (submit_invalid_answer_rejected (fun _ => none) (fun _ => none)
    ⟨[1], 0, 0, [], none⟩ (.jstr "A1".toList) 0
    (by intro a ha; injection ha with h2; subst h2; decide)).1

/-- C4 counterexample: submitting "BA" for a question whose stored correct
answer is "AB" — the same set of letters — is judged incorrect, because the
code compares raw strings (app.py line 137). -/
theorem submit_letter_set_counterexample :
    (submit_answer
        (fun i => if i = 1 then some ⟨1, 7, [], [], "AB".toList, []⟩ else none)
        (fun _ => none) (some ⟨[1], 0, 0, [], none⟩)
        (.jstr "BA".toList) 0).resp =
      .ok false "AB".toList 0 false ∧
    "BA".toList.toFinset = "AB".toList.toFinset := by
  constructor
  · rfl
  · decide

/-- C4 amended: with an active in-progress session and a shape-valid
submission, the answer is judged correct exactly when it is literally equal,
character for character and in order, to the stored correct-answer string. -/
theorem submit_literal_match (store : ℕ → Option Question)
    (rstore : ℕ → Option ReviewStats) (s : SessionState) (a : List Char)
    (now : ℤ) (q : Question)
    (hvalid : pyIsAlpha a = true ∧ a.length ≤ 5)
    (hip : s.current_index < s.questions.length)
    (hq : store (s.questions.getD s.current_index 0) = some q) :
    (submit_answer store rstore (some s) (.jstr a) now).resp =
      .ok (a == q.correct_answer) q.correct_answer
        (if a == q.correct_answer then s.score + 1 else s.score)
        (decide (s.current_index + 1 < s.questions.length)) := by
  simp only [submit_answer]
  rw [if_neg (not_not_intro hvalid), if_neg (not_le.mpr hip), hq]

/-- Witness for C4's amended claim: the literally equal submission "AB" is
judged correct. -/
theorem submit_literal_match_witness :
    (submit_answer
        (fun i => if i = 1 then some ⟨1, 7, [], [], "AB".toList, []⟩ else none)
        (fun _ => none) (some ⟨[1], 0, 0, [], none⟩)
        (.jstr "AB".toList) 0).resp =
      .ok true "AB".toList 1 false := by
  have h := submit_literal_match
    (fun i => if i = 1 then some ⟨1, 7, [], [], "AB".toList, []⟩ else none)
    (fun _ => none) ⟨[1], 0, 0, [], none⟩ ("AB".toList) 0
    ⟨1, 7, [], [], "AB".toList, []⟩ (by decide) (by decide) (by decide)
  rw [h]
  decide

/-- Helper: the post-validation tail of `start_session` errors exactly on an
empty selection, and on success returns the descriptor and fresh session
built from the selection. -/
theorem start_session_go_spec (fm : List Char)
    (tags0 : Option (List (List Char))) (selected : List Question) :
    (selected = [] → start_session_go fm tags0 selected = .error .noQuestions) ∧
    (∀ st d, start_session_go fm tags0 selected = .ok (st, d) →
      d.total = selected.length ∧ d.filter = fm ∧ selected ≠ [] ∧
      st.questions = selected.map (fun q => q.id) ∧
      st.current_index = 0 ∧ st.score = 0 ∧ st.answers = [] ∧
      st.tags = d.tags) := by
  constructor
  · intro h
    subst h
    rfl
  · intro st d h
    by_cases hsel : selected.isEmpty
    · rw [start_session_go, if_pos hsel] at h
      exact Except.noConfusion h
    · rw [start_session_go, if_neg hsel] at h
      simp only [Except.ok.injEq, Prod.mk.injEq] at h
      obtain ⟨hst, hd⟩ := h
      subst hst
      subst hd
      exact ⟨rfl, rfl, by simpa using hsel, rfl, rfl, rfl, rfl, rfl⟩

/-- C8: `start_session` rejects, with an error and without producing any
session state, every request whose count (default 10) is not an integer in
1–100, whose filter mode (default "all") is not one of all/new/wrong/due, or
for which selection returned zero questions; on success the returned
descriptor carries the selection total, the filter and the normalized tags,
which also become the new session's tags. -/
theorem start_session_spec (countJ filterJ tagsJ : JVal)
    (selected : List Question) :
    ((¬ ∃ n : ℤ, countJ.getD (.jint 10) = .jint n ∧ 1 ≤ n ∧ n ≤ 100) →
      ∃ e, start_session countJ filterJ tagsJ selected = .error e) ∧
    ((¬ ∃ fm, filterJ.getD (.jstr "all".toList) = .jstr fm ∧
        fm ∈ VALID_FILTERS) →
      ∃ e, start_session countJ filterJ tagsJ selected = .error e) ∧
    (selected = [] →
      ∃ e, start_session countJ filterJ tagsJ selected = .error e) ∧
    (∀ st d, start_session countJ filterJ tagsJ selected = .ok (st, d) →
      d.total = selected.length ∧
      filterJ.getD (.jstr "all".toList) = .jstr d.filter ∧
      d.filter ∈ VALID_FILTERS ∧
      (∃ n : ℤ, countJ.getD (.jint 10) = .jint n ∧ 1 ≤ n ∧ n ≤ 100) ∧
      selected ≠ [] ∧
      st.questions = selected.map (fun q => q.id) ∧
      st.current_index = 0 ∧ st.score = 0 ∧ st.answers = [] ∧
      st.tags = d.tags) := by
  rcases hres : start_session countJ filterJ tagsJ selected with e | std
  · refine ⟨fun _ => ⟨e, rfl⟩, fun _ => ⟨e, rfl⟩, fun _ => ⟨e, rfl⟩, ?_⟩
    intro st d h
    exact Except.noConfusion h
  · obtain ⟨st0, d0⟩ := std
    have h := hres
    simp only [start_session] at h
    split at h
    case h_2 => exact Except.noConfusion h
    case h_1 n heqc =>
      split at h
      case isTrue => exact Except.noConfusion h
      case isFalse hn =>
        split at h
        case h_2 => exact Except.noConfusion h
        case h_1 fm heqf =>
          split at h
          case isTrue => exact Except.noConfusion h
          case isFalse hfm =>
            have hcount : ∃ n0 : ℤ, countJ.getD (.jint 10) = .jint n0 ∧
                1 ≤ n0 ∧ n0 ≤ 100 := ⟨n, heqc, by omega, by omega⟩
            have hfmem : fm ∈ VALID_FILTERS := not_not.mp hfm
            have finish : ∀ tags0,
                start_session_go fm tags0 selected = .ok (st0, d0) →
                d0.total = selected.length ∧
                filterJ.getD (.jstr "all".toList) = .jstr d0.filter ∧
                d0.filter ∈ VALID_FILTERS ∧
                (∃ n0 : ℤ, countJ.getD (.jint 10) = .jint n0 ∧
                  1 ≤ n0 ∧ n0 ≤ 100) ∧
                selected ≠ [] ∧
                st0.questions = selected.map (fun q => q.id) ∧
                st0.current_index = 0 ∧ st0.score = 0 ∧ st0.answers = [] ∧
                st0.tags = d0.tags := by
              intro tags0 hgo
              obtain ⟨ht, hfil, hne, hq, hi, hsc, ha, htg⟩ :=
                (start_session_go_spec fm tags0 selected).2 st0 d0 hgo
              exact ⟨ht, by rw [heqf, hfil], by rw [hfil]; exact hfmem,
                hcount, hne, hq, hi, hsc, ha, htg⟩
            have conc :
                d0.total = selected.length ∧
                filterJ.getD (.jstr "all".toList) = .jstr d0.filter ∧
                d0.filter ∈ VALID_FILTERS ∧
                (∃ n0 : ℤ, countJ.getD (.jint 10) = .jint n0 ∧
                  1 ≤ n0 ∧ n0 ≤ 100) ∧
                selected ≠ [] ∧
                st0.questions = selected.map (fun q => q.id) ∧
                st0.current_index = 0 ∧ st0.score = 0 ∧ st0.answers = [] ∧
                st0.tags = d0.tags := by
              split at h
              · exact finish _ h
              · split at h
                · exact finish _ h
                · exact Except.noConfusion h
              · exact Except.noConfusion h
            refine ⟨fun hbad => absurd conc.2.2.2.1 hbad,
              fun hbad => absurd ⟨d0.filter, conc.2.1, conc.2.2.1⟩ hbad,
              fun hemp => absurd hemp conc.2.2.2.2.1, ?_⟩
            intro st d h4
            simp only [Except.ok.injEq, Prod.mk.injEq] at h4
            obtain ⟨hst, hd⟩ := h4
            subst hst
            subst hd
            exact conc

/-- Witness for C8: a string count is rejected; an empty selection is
rejected; a default request over one question succeeds with total 1. -/
theorem start_session_spec_witness :
    (∃ e, start_session (.jstr "x".toList) .jnull .jnull
        [⟨1, 7, [], [], "A".toList, []⟩] = .error e) ∧
    (∃ e, start_session .jnull .jnull .jnull ([] : List Question) = .error e) ∧
    (⟨1, "all".toList, none⟩ : StartDescriptor).total = 1 := by
  refine ⟨?_, ?_, ?_⟩
  · exact (start_session_spec (.jstr "x".toList) .jnull .jnull
      [⟨1, 7, [], [], "A".toList, []⟩]).1
      (by rintro ⟨n, hn, _⟩; simp [JVal.getD] at hn)
  · exact (start_session_spec .jnull .jnull .jnull []).2.2.1 rfl
  · have hok : start_session .jnull .jnull .jnull
        [⟨1, 7, [], [], "A".toList, []⟩] =
        .ok (⟨[1], 0, 0, [], none⟩, ⟨1, "all".toList, none⟩) := rfl
    exact ((start_session_spec .jnull .jnull .jnull
      [⟨1, 7, [], [], "A".toList, []⟩]).2.2.2 _ _ hok).1

/-- Helper: reading off the element a `drop` equation exposes. -/
theorem lookup_of_drop {l : List ℕ} {idx x : ℕ} {rest : List ℕ}
    (h : l.drop idx = x :: rest) :
    l.getD idx 0 = x ∧ idx < l.length ∧ l.drop (idx + 1) = rest := by
  have hlt : idx < l.length := by
    by_contra hge
    rw [List.drop_eq_nil_of_le (le_of_not_lt hge)] at h
    exact List.noConfusion h
  have h2 := List.drop_eq_getElem_cons hlt
  rw [h] at h2
  injection h2 with h3 h4
  refine ⟨?_, hlt, h4.symm⟩
  rw [List.getD_eq_getElem?_getD, List.getElem?_eq_getElem hlt]
  exact congrArg (fun o => Option.getD o 0) (congrArg some h3.symm)

/-- Helper: a single in-progress, shape-valid submission, written out. -/
theorem submit_step (store : ℕ → Option Question)
    (rstore : ℕ → Option ReviewStats) (s : SessionState) (a : List Char)
    (now : ℤ) (q : Question)
    (hvalid : pyIsAlpha a = true ∧ a.length ≤ 5)
    (hip : s.current_index < s.questions.length)
    (hq : store (s.questions.getD s.current_index 0) = some q) :
    submit_answer store rstore (some s) (.jstr a) now =
      ⟨.ok (a == q.correct_answer) q.correct_answer
          (if a == q.correct_answer then s.score + 1 else s.score)
          (decide (s.current_index + 1 < s.questions.length)),
        some { s with
          score := if a == q.correct_answer then s.score + 1 else s.score
          answers := s.answers ++ [expectedEntry q a]
          current_index := s.current_index + 1 },
        (record_answer rstore q.id a (a == q.correct_answer) now).1,
        [(record_answer rstore q.id a (a == q.correct_answer) now).2]⟩ := by
  simp only [submit_answer]
  rw [if_neg (not_not_intro hvalid), if_neg (not_le.mpr hip), hq]
  rfl

/-- Helper: `nCorrect` unfolded one step. -/
theorem nCorrect_cons (q : Question) (qs : List Question) (a : List Char)
    (ans : List (List Char)) :
    nCorrect (q :: qs) (a :: ans) =
      nCorrect qs ans + (if (a == q.correct_answer) = true then 1 else 0) := by
  simp [nCorrect, List.count_cons]

/-- Helper: running a list of shape-valid answers from any in-progress point
advances the position across the remaining questions, appends one result
entry per question in order, adds the number of correct submissions to the
score, and returns one response per question, the last one carrying the
final score and has_next flag. -/
theorem run_answers_spec (store : ℕ → Option Question) (now : ℤ) :
    ∀ (qs : List Question) (ans : List (List Char))
      (rstore : ℕ → Option ReviewStats) (s : SessionState),
      ans.length = qs.length →
      (∀ a ∈ ans, pyIsAlpha a = true ∧ a.length ≤ 5) →
      (∀ q ∈ qs, store q.id = some q) →
      s.questions.drop s.current_index = qs.map (fun q => q.id) →
      ∃ s1,
        (run_answers store rstore (some s) ans now).sess = some s1 ∧
        s1.questions = s.questions ∧
        s1.tags = s.tags ∧
        s1.current_index = s.current_index + qs.length ∧
        s1.score = s.score + nCorrect qs ans ∧
        s1.answers = s.answers ++ List.zipWith expectedEntry qs ans ∧
        (run_answers store rstore (some s) ans now).resps.length = qs.length ∧
        (qs ≠ [] → ∃ b c,
          (run_answers store rstore (some s) ans now).resps.getLast? =
            some (.ok b c s1.score
              (decide (s1.current_index < s1.questions.length)))) := by
  intro qs
  induction qs with
  | nil =>
      intro ans rstore s hlen _ _ _
      have hans : ans = [] := List.eq_nil_of_length_eq_zero (by simpa using hlen)
      subst hans
      exact ⟨s, rfl, rfl, rfl, by simp, by simp [nCorrect], by simp, rfl,
        fun h => absurd rfl h⟩
  | cons q qs ih =>
      intro ans rstore s hlen hvalid hstore hdrop
      cases ans with
      | nil => exact absurd hlen (by simp)
      | cons a ans =>
          simp only [List.map_cons] at hdrop
          obtain ⟨hget, hlt, hdrop2⟩ := lookup_of_drop hdrop
          have hq : store (s.questions.getD s.current_index 0) = some q := by
            rw [hget]
            exact hstore q (List.mem_cons_self q qs)
          have step := submit_step store rstore s a now q
            (hvalid a (List.mem_cons_self a ans)) hlt hq
          have hlen2 : ans.length = qs.length := by simpa using hlen
          have hvalid2 : ∀ a0 ∈ ans, pyIsAlpha a0 = true ∧ a0.length ≤ 5 :=
            fun a0 ha0 => hvalid a0 (List.mem_cons_of_mem a ha0)
          have hstore2 : ∀ q0 ∈ qs, store q0.id = some q0 :=
            fun q0 hq0 => hstore q0 (List.mem_cons_of_mem q hq0)
          obtain ⟨s1, hsess, hq1, ht1, hi1, hsc1, ha1, hr1, hl1⟩ :=
            ih ans (record_answer rstore q.id a (a == q.correct_answer) now).1
              { s with
                score := if a == q.correct_answer then s.score + 1 else s.score
                answers := s.answers ++ [expectedEntry q a]
                current_index := s.current_index + 1 }
              hlen2 hvalid2 hstore2 hdrop2
          have hrun : run_answers store rstore (some s) (a :: ans) now =
              ⟨(run_answers store
                  (record_answer rstore q.id a (a == q.correct_answer) now).1
                  (some { s with
                    score := if a == q.correct_answer then s.score + 1
                      else s.score
                    answers := s.answers ++ [expectedEntry q a]
                    current_index := s.current_index + 1 }) ans now).sess,
               (run_answers store
                  (record_answer rstore q.id a (a == q.correct_answer) now).1
                  (some { s with
                    score := if a == q.correct_answer then s.score + 1
                      else s.score
                    answers := s.answers ++ [expectedEntry q a]
                    current_index := s.current_index + 1 }) ans now).rstore,
               (.ok (a == q.correct_answer) q.correct_answer
                   (if a == q.correct_answer then s.score + 1 else s.score)
                   (decide (s.current_index + 1 < s.questions.length))) ::
                 (run_answers store
                    (record_answer rstore q.id a (a == q.correct_answer) now).1
                    (some { s with
                      score := if a == q.correct_answer then s.score + 1
                        else s.score
                      answers := s.answers ++ [expectedEntry q a]
                      current_index := s.current_index + 1 }) ans now).resps⟩ := by
            simp only [run_answers]
            rw [step]
          refine ⟨s1, ?_, ?_, ?_, ?_, ?_, ?_, ?_, ?_⟩
          · rw [hrun]
            exact hsess
          · exact hq1
          · exact ht1
          · rw [hi1]
            simp only [SessionState.mk.injEq, List.length_cons]
            omega
          · rw [hsc1, nCorrect_cons]
            cases hb : (a == q.correct_answer) <;> (simp [hb]; try omega)
          · rw [ha1]
            simp [List.append_assoc]
          · rw [hrun]
            simp only [List.length_cons, hr1]
          · intro _
            rcases hqs : qs with _ | ⟨q2, qs2⟩
            · subst hqs
              have hans2 : ans = [] := List.eq_nil_of_length_eq_zero hlen2
              subst hans2
              refine ⟨a == q.correct_answer, q.correct_answer, ?_⟩
              rw [hrun]
              have hresps : (run_answers store
                  (record_answer rstore q.id a (a == q.correct_answer) now).1
                  (some { s with
                    score := if a == q.correct_answer then s.score + 1
                      else s.score
                    answers := s.answers ++ [expectedEntry q a]
                    current_index := s.current_index + 1 }) [] now).resps =
                  [] := rfl
              rw [hresps]
              have hscore : s1.score =
                  (if a == q.correct_answer then s.score + 1 else s.score) := by
                rw [hsc1]
                simp [nCorrect]
              have hidx : s1.current_index = s.current_index + 1 := by
                rw [hi1]
                rfl
              rw [List.getLast?_singleton, hscore, hidx, hq1]
            · subst hqs
              obtain ⟨b, c, hlast⟩ := hl1 (by simp)
              refine ⟨b, c, ?_⟩
              rw [hrun]
              have hne : (run_answers store
                  (record_answer rstore q.id a (a == q.correct_answer) now).1
                  (some { s with
                    score := if a == q.correct_answer then s.score + 1
                      else s.score
                    answers := s.answers ++ [expectedEntry q a]
                    current_index := s.current_index + 1 }) ans now).resps ≠
                  [] := by
                intro hnil
                rw [hnil] at hr1
                simp at hr1
              rcases hrsp : (run_answers store
                  (record_answer rstore q.id a (a == q.correct_answer) now).1
                  (some { s with
                    score := if a == q.correct_answer then s.score + 1
                      else s.score
                    answers := s.answers ++ [expectedEntry q a]
                    current_index := s.current_index + 1 }) ans now).resps with
                _ | ⟨r2, rs2⟩
              · exact absurd hrsp hne
              · rw [List.getLast?_cons_cons]
                rw [hrsp] at hlast
                exact hlast

/-- C5: starting a session on questions `qs` and submitting one shape-valid
answer for each question makes has_next false, and the results report
total = |qs|, score = the number of correct submissions, and one result
entry per question in the original session order. -/
theorem session_completion (store : ℕ → Option Question)
    (rstore : ℕ → Option ReviewStats) (qs : List Question)
    (ans : List (List Char)) (tags : Option (List (List Char))) (now : ℤ)
    (hlen : ans.length = qs.length)
    (hvalid : ∀ a ∈ ans, pyIsAlpha a = true ∧ a.length ≤ 5)
    (hstore : ∀ q ∈ qs, store q.id = some q) :
    ∃ s1,
      (run_answers store rstore
        (some ⟨qs.map (fun q => q.id), 0, 0, [], tags⟩) ans now).sess =
          some s1 ∧
      ¬ (s1.current_index < s1.questions.length) ∧
      session_results (some s1) =
        .ok ⟨qs.length, nCorrect qs ans, List.zipWith expectedEntry qs ans⟩ ∧
      (run_answers store rstore
        (some ⟨qs.map (fun q => q.id), 0, 0, [], tags⟩) ans now).resps.length =
          qs.length ∧
      (qs ≠ [] → ∃ b c,
        (run_answers store rstore
          (some ⟨qs.map (fun q => q.id), 0, 0, [], tags⟩) ans
            now).resps.getLast? =
          some (.ok b c (nCorrect qs ans) false)) := by
  obtain ⟨s1, hsess, hq1, ht1, hi1, hsc1, ha1, hr1, hl1⟩ :=
    run_answers_spec store now qs ans rstore
      ⟨qs.map (fun q => q.id), 0, 0, [], tags⟩ hlen hvalid hstore (by simp)
  have hq2 : s1.questions = qs.map (fun q => q.id) := hq1
  have hi2 : s1.current_index = qs.length := by simpa using hi1
  have hsc2 : s1.score = nCorrect qs ans := by simpa using hsc1
  have ha2 : s1.answers = List.zipWith expectedEntry qs ans := by simpa using ha1
  have hlen1 : s1.questions.length = qs.length := by rw [hq2]; simp
  have hterm : ¬ (s1.current_index < s1.questions.length) := by
    rw [hi2, hlen1]
    omega
  refine ⟨s1, hsess, hterm, ?_, hr1, ?_⟩
  · simp [session_results, hlen1, hsc2, ha2]
  · intro hne
    obtain ⟨b, c, hlast⟩ := hl1 hne
    rw [hsc2, decide_eq_false hterm] at hlast
    exact ⟨b, c, hlast⟩

/-- Witness for C5: a two-question session (both with correct answer "A"),
answered "A" then "B": score 1, two entries, has_next false at the end. -/
theorem session_completion_witness :
    ∃ s1,
      (run_answers
          (fun i => if i = 1 then some ⟨1, 11, [], [], "A".toList, []⟩
            else if i = 2 then some ⟨2, 12, [], [], "A".toList, []⟩ else none)
          (fun _ => none)
          (some ⟨([⟨1, 11, [], [], "A".toList, []⟩,
                   ⟨2, 12, [], [], "A".toList, []⟩] : List Question).map
              (fun q => q.id), 0, 0, [], none⟩)
          [ "A".toList, "B".toList] 0).sess = some s1 ∧
      ¬ (s1.current_index < s1.questions.length) ∧
      session_results (some s1) =
        .ok ⟨([⟨1, 11, [], [], "A".toList, []⟩,
               ⟨2, 12, [], [], "A".toList, []⟩] : List Question).length,
          nCorrect [⟨1, 11, [], [], "A".toList, []⟩,
                    ⟨2, 12, [], [], "A".toList, []⟩]
            [ "A".toList, "B".toList],
          List.zipWith expectedEntry
            [⟨1, 11, [], [], "A".toList, []⟩, ⟨2, 12, [], [], "A".toList, []⟩]
            [ "A".toList, "B".toList]⟩ ∧
      (run_answers
          (fun i => if i = 1 then some ⟨1, 11, [], [], "A".toList, []⟩
            else if i = 2 then some ⟨2, 12, [], [], "A".toList, []⟩ else none)
          (fun _ => none)
          (some ⟨([⟨1, 11, [], [], "A".toList, []⟩,
                   ⟨2, 12, [], [], "A".toList, []⟩] : List Question).map
              (fun q => q.id), 0, 0, [], none⟩)
          [ "A".toList, "B".toList] 0).resps.length =
        ([⟨1, 11, [], [], "A".toList, []⟩,
          ⟨2, 12, [], [], "A".toList, []⟩] : List Question).length ∧
      (([⟨1, 11, [], [], "A".toList, []⟩,
         ⟨2, 12, [], [], "A".toList, []⟩] : List Question) ≠ [] → ∃ b c,
        (run_answers
            (fun i => if i = 1 then some ⟨1, 11, [], [], "A".toList, []⟩
              else if i = 2 then some ⟨2, 12, [], [], "A".toList, []⟩
              else none)
            (fun _ => none)
            (some ⟨([⟨1, 11, [], [], "A".toList, []⟩,
                     ⟨2, 12, [], [], "A".toList, []⟩] : List Question).map
                (fun q => q.id), 0, 0, [], none⟩)
            [ "A".toList, "B".toList] 0).resps.getLast? =
          some (.ok b c
            (nCorrect [⟨1, 11, [], [], "A".toList, []⟩,
                       ⟨2, 12, [], [], "A".toList, []⟩]
              [ "A".toList, "B".toList]) false)) :=
  session_completion
    (fun i => if i = 1 then some ⟨1, 11, [], [], "A".toList, []⟩
      else if i = 2 then some ⟨2, 12, [], [], "A".toList, []⟩ else none)
    (fun _ => none)
    [⟨1, 11, [], [], "A".toList, []⟩, ⟨2, 12, [], [], "A".toList, []⟩]
    [ "A".toList, "B".toList] none 0 rfl (by decide) (by decide)

/-- Helper: `Char.ofNat` on a small valid code point. -/
theorem char_toNat_ofNat_of_valid (n : ℕ) (h1 : n < 55296) :
    (Char.ofNat n).toNat = n := by
  have hv : n.isValidChar := Or.inl h1
  rw [Char.ofNat, dif_pos hv]
  simp [Char.ofNatAux, Char.toNat, UInt32.toNat]

/-- Helper: `Char.isAlphanum` characterized by code-point ranges. -/
theorem char_isAlphanum_iff (c : Char) :
    c.isAlphanum = true ↔
      (48 ≤ c.toNat ∧ c.toNat ≤ 57) ∨ (65 ≤ c.toNat ∧ c.toNat ≤ 90) ∨
        (97 ≤ c.toNat ∧ c.toNat ≤ 122) := by
  simp [Char.isAlphanum, Char.isAlpha, Char.isUpper, Char.isLower,
    Char.isDigit, Char.toNat, Char.le_def, UInt32.le_def, BitVec.le_def,
    UInt32.toNat]
  omega

/-- Helper: the code point of `Char.toLower`. -/
theorem char_toLower_toNat (c : Char) :
    (Char.toLower c).toNat =
      if 65 ≤ c.toNat ∧ c.toNat ≤ 90 then c.toNat + 32 else c.toNat := by
  simp only [Char.toLower]
  split
  · next h => exact char_toNat_ofNat_of_valid _ (by omega)
  · next h => rfl

/-- Helper: unfolding `likeRaw` at a `%`. -/
theorem likeRaw_percent (p s : List Char) :
    likeRaw ('%' :: p) s = likeSuffix (fun s2 => likeRaw p s2) s := by
  simp [likeRaw]

/-- Helper: unfolding `likeRaw` at a literal against the empty string. -/
theorem likeRaw_lit_nil (c : Char) (p : List Char) (hc : c ≠ '%') :
    likeRaw (c :: p) [] = false := by
  simp [likeRaw, hc]

/-- Helper: unfolding `likeRaw` at a non-wildcard literal. -/
theorem likeRaw_lit_cons (c : Char) (p : List Char) (d : Char) (s : List Char)
    (hc : c ≠ '%') (hu : c ≠ '_') :
    likeRaw (c :: p) (d :: s) = ((c == d) && likeRaw p s) := by
  simp [likeRaw, hc, hu]

/-- Helper: lowercasing preserves alphanumeric characters. -/
theorem toLower_isAlphanum (c : Char) (h : c.isAlphanum = true) :
    (Char.toLower c).isAlphanum = true := by
  rw [char_isAlphanum_iff] at h ⊢
  rw [char_toLower_toNat]
  split <;> omega

/-- Helper: an alphanumeric character differs from any non-alphanumeric
one. -/
theorem alphanum_ne (c d : Char) (h : c.isAlphanum = true)
    (hd : d.isAlphanum = false) : c ≠ d := by
  intro he
  rw [he, hd] at h
  exact Bool.false_ne_true h

/-- Helper: `likeSuffix` succeeds exactly on some suffix. -/
theorem likeSuffix_iff (m : List Char → Bool) (s : List Char) :
    likeSuffix m s = true ↔ ∃ s2, s2 <:+ s ∧ m s2 = true := by
  induction s with
  | nil =>
      simp only [likeSuffix]
      constructor
      · intro h
        exact ⟨[], List.suffix_rfl, h⟩
      · rintro ⟨s2, hs, hm⟩
        rw [List.suffix_nil.mp hs] at hm
        exact hm
  | cons d s2 ih =>
      simp only [likeSuffix, Bool.or_eq_true, ih]
      constructor
      · rintro (h | ⟨s3, hs, hm⟩)
        · exact ⟨d :: s2, List.suffix_rfl, h⟩
        · exact ⟨s3, hs.trans (List.suffix_cons d s2), hm⟩
      · rintro ⟨s3, hs, hm⟩
        rcases List.suffix_cons_iff.mp hs with h | h
        · subst h
          exact Or.inl hm
        · exact Or.inr ⟨s3, h, hm⟩

/-- Helper: a wildcard-free pattern followed by `%` matches exactly the
strings it prefixes. -/
theorem likeRaw_percent_end (p : List Char)
    (hp : ∀ c ∈ p, c ≠ '%' ∧ c ≠ '_') :
    ∀ s, likeRaw (p ++ ['%']) s = true ↔ p <+: s := by
  induction p with
  | nil =>
      intro s
      have hall : likeRaw ['%'] s = true := by
        rw [likeRaw_percent, likeSuffix_iff]
        exact ⟨[], List.nil_suffix, rfl⟩
      simp [hall]
  | cons c p ih =>
      intro s
      have hc := hp c (List.mem_cons_self c p)
      have hrest : ∀ c0 ∈ p, c0 ≠ '%' ∧ c0 ≠ '_' :=
        fun c0 h0 => hp c0 (List.mem_cons_of_mem c h0)
      cases s with
      | nil =>
          rw [List.cons_append, likeRaw_lit_nil c _ hc.1]
          simp
      | cons d s2 =>
          rw [List.cons_append, likeRaw_lit_cons c _ d s2 hc.1 hc.2]
          simp only [Bool.and_eq_true, beq_iff_eq, List.cons_prefix_cons]
          rw [ih hrest s2]

/-- Helper: `'%' ++ p ++ '%'` with `p` wildcard-free matches exactly the
strings containing `p`. -/
theorem likeRaw_infix_iff (p : List Char)
    (hp : ∀ c ∈ p, c ≠ '%' ∧ c ≠ '_') (s : List Char) :
    likeRaw ('%' :: (p ++ ['%'])) s = true ↔ p <:+: s := by
  rw [likeRaw_percent, likeSuffix_iff, List.infix_iff_prefix_suffix]
  constructor
  · rintro ⟨s2, hs, hm⟩
    exact ⟨s2, (likeRaw_percent_end p hp s2).mp hm, hs⟩
  · rintro ⟨s2, hpre, hs⟩
    exact ⟨s2, hs, (likeRaw_percent_end p hp s2).mpr hpre⟩

theorem goodTag_ne_quote {t : List Char} (ht : goodTag t) :
    ∀ c ∈ t, c ≠ '"' :=
  fun c hc => alphanum_ne c '"' (ht c hc) (by decide)

theorem jsonEscape_id (g : List Char) (hg : goodTag g) : jsonEscape g = g := by
  induction g with
  | nil => rfl
  | cons c cs ih =>
      have hc := hg c (List.mem_cons_self c cs)
      rw [jsonEscape, if_neg, ih (fun c0 h0 => hg c0 (List.mem_cons_of_mem c h0))]
      · rfl
      · rintro (h | h)
        · exact alphanum_ne c '\\' hc (by decide) h
        · exact alphanum_ne c '"' hc (by decide) h

theorem infix_append_left {α : Type} {l B : List α} (A : List α)
    (h : l <:+: B) : l <:+: A ++ B := by
  obtain ⟨u, v, huv⟩ := h
  exact ⟨A ++ u, v, by rw [← huv]; simp [List.append_assoc]⟩

theorem infix_append_right {α : Type} {l B : List α} (C : List α)
    (h : l <:+: B) : l <:+: B ++ C := by
  obtain ⟨u, v, huv⟩ := h
  exact ⟨u, v ++ C, by rw [← huv]; simp [List.append_assoc]⟩

theorem prefix_quote_eq :
    ∀ (t g w : List Char), (∀ c ∈ t, c ≠ '"') → (∀ c ∈ g, c ≠ '"') →
      (t ++ ['"']) <+: (g ++ '"' :: w) → t = g := by
  intro t
  induction t with
  | nil =>
      intro g w _ hg h
      cases g with
      | nil => rfl
      | cons c g2 =>
          rw [List.nil_append, List.cons_append] at h
          rcases List.cons_prefix_cons.mp h with ⟨heq, _⟩
          exact absurd heq.symm (hg c (List.mem_cons_self c g2))
  | cons a t2 ih =>
      intro g w ht hg h
      cases g with
      | nil =>
          rw [List.cons_append, List.nil_append] at h
          rcases List.cons_prefix_cons.mp h with ⟨heq, _⟩
          exact absurd heq (ht a (List.mem_cons_self a t2))
      | cons c g2 =>
          rw [List.cons_append, List.cons_append] at h
          rcases List.cons_prefix_cons.mp h with ⟨heq, h2⟩
          subst heq
          rw [ih g2 w (fun c0 h0 => ht c0 (List.mem_cons_of_mem a h0))
            (fun c0 h0 => hg c0 (List.mem_cons_of_mem a h0)) h2]

theorem infix_cons_peel {P : List Char} {h0 : Char} :
    ∀ (g z : List Char), (∀ c ∈ g, c ≠ h0) →
      (h0 :: P) <:+: (g ++ z) → (h0 :: P) <:+: z := by
  intro g
  induction g with
  | nil => intro z _ h; simpa using h
  | cons c g2 ih =>
      intro z hg h
      rw [List.cons_append] at h
      rcases List.infix_cons_iff.mp h with hpre | hinf
      · rcases List.cons_prefix_cons.mp hpre with ⟨heq, _⟩
        exact absurd heq.symm (hg c (List.mem_cons_self c g2))
      · exact ih z (fun c0 hc0 => hg c0 (List.mem_cons_of_mem c hc0)) hinf

theorem body_mem (t : List Char) (ht : goodTag t) :
    ∀ gs : List (List Char), (∀ g ∈ gs, goodTag g) →
      ('"' :: (t ++ ['"'])) <:+: (jsonBody gs ++ [']']) → t ∈ gs := by
  intro gs
  induction gs with
  | nil =>
      intro _ h
      have hmem : '"' ∈ ([']'] : List Char) :=
        h.sublist.subset (List.mem_cons_self _ _)
      simp at hmem
  | cons g gs ih =>
      intro hgs h
      have hgood := hgs g (List.mem_cons_self g gs)
      have hgs2 : ∀ g0 ∈ gs, goodTag g0 :=
        fun g0 h0 => hgs g0 (List.mem_cons_of_mem g h0)
      have hshape : ∃ w, jsonBody (g :: gs) ++ [']'] =
          '"' :: (g ++ '"' :: w) ∧
          ((gs = [] ∧ w = [']']) ∨
           (gs ≠ [] ∧ w = ',' :: ' ' :: (jsonBody gs ++ [']']))) := by
        cases gs with
        | nil =>
            refine ⟨[']'], ?_, Or.inl ⟨rfl, rfl⟩⟩
            simp [jsonBody, jsonEscape_id g hgood]
        | cons g2 gs2 =>
            refine ⟨',' :: ' ' :: (jsonBody (g2 :: gs2) ++ [']']), ?_,
              Or.inr ⟨by simp, rfl⟩⟩
            simp [jsonBody, jsonEscape_id g hgood]
      obtain ⟨w, hw, hcase⟩ := hshape
      rw [hw] at h
      rcases List.infix_cons_iff.mp h with hpre | hinf
      · rcases List.cons_prefix_cons.mp hpre with ⟨_, hpre2⟩
        have heq := prefix_quote_eq t g w (goodTag_ne_quote ht)
          (goodTag_ne_quote hgood) hpre2
        subst heq
        exact List.mem_cons_self t gs
      · have hpeel := infix_cons_peel g ('"' :: w) (goodTag_ne_quote hgood) hinf
        rcases List.infix_cons_iff.mp hpeel with hpre2 | hinf2
        · rcases List.cons_prefix_cons.mp hpre2 with ⟨_, hp3⟩
          rcases hcase with ⟨_, rfl⟩ | ⟨_, rfl⟩
          · cases t with
            | nil =>
                rw [List.nil_append] at hp3
                rcases List.cons_prefix_cons.mp hp3 with ⟨heq, _⟩
                exact absurd heq (by decide)
            | cons c t2 =>
                rw [List.cons_append] at hp3
                rcases List.cons_prefix_cons.mp hp3 with ⟨heq, _⟩
                exact absurd heq
                  (alphanum_ne c ']' (ht c (List.mem_cons_self c t2)) (by decide))
          · cases t with
            | nil =>
                rw [List.nil_append] at hp3
                rcases List.cons_prefix_cons.mp hp3 with ⟨heq, _⟩
                exact absurd heq (by decide)
            | cons c t2 =>
                rw [List.cons_append] at hp3
                rcases List.cons_prefix_cons.mp hp3 with ⟨heq, _⟩
                exact absurd heq
                  (alphanum_ne c ',' (ht c (List.mem_cons_self c t2)) (by decide))
        · rcases hcase with ⟨_, rfl⟩ | ⟨_, rfl⟩
          · have hmem : '"' ∈ ([']'] : List Char) :=
              hinf2.sublist.subset (List.mem_cons_self _ _)
            simp at hmem
          · have hpeel2 := infix_cons_peel [',', ' '] (jsonBody gs ++ [']'])
              (by intro c0 hc0; fin_cases hc0 <;> decide) hinf2
            exact List.mem_cons_of_mem g (ih hgs2 hpeel2)

theorem mem_body (t : List Char) :
    ∀ gs : List (List Char), t ∈ gs → (∀ g ∈ gs, goodTag g) →
      ('"' :: (t ++ ['"'])) <:+: jsonBody gs := by
  intro gs
  induction gs with
  | nil => intro h _; cases h
  | cons g gs ih =>
      intro hmem hgs
      rcases List.mem_cons.mp hmem with h | h
      · subst h
        rw [jsonBody, jsonEscape_id t (hgs t (List.mem_cons_self t gs))]
        exact ⟨[], (if gs.isEmpty then [] else [',', ' ']) ++ jsonBody gs,
          by simp⟩
      · have hrec := ih h (fun g0 h0 => hgs g0 (List.mem_cons_of_mem g h0))
        rw [jsonBody]
        exact infix_append_left _ hrec

theorem quoted_infix_iff_mem (t : List Char) (gs : List (List Char))
    (ht : goodTag t) (hgs : ∀ g ∈ gs, goodTag g) :
    ('"' :: (t ++ ['"'])) <:+: jsonTags gs ↔ t ∈ gs := by
  rw [jsonTags]
  constructor
  · intro h
    rcases List.infix_cons_iff.mp h with hpre | hinf
    · rcases List.cons_prefix_cons.mp hpre with ⟨heq, _⟩
      exact absurd heq (by decide)
    · exact body_mem t ht gs hgs hinf
  · intro h
    exact List.infix_cons (infix_append_right [']'] (mem_body t gs h hgs))

/-- Helper: lowercasing keeps a tag alphanumeric. -/
theorem goodTag_lower {t : List Char} (ht : goodTag t) :
    goodTag (t.map Char.toLower) := by
  intro c hc
  rw [List.mem_map] at hc
  obtain ⟨c0, hc0, rfl⟩ := hc
  exact toLower_isAlphanum c0 (ht c0 hc0)

/-- Helper: the body of the serialized tag list commutes with ASCII
lowercasing, for alphanumeric tags. -/
theorem jsonBody_lower :
    ∀ gs : List (List Char), (∀ g ∈ gs, goodTag g) →
      (jsonBody gs).map Char.toLower =
        jsonBody (gs.map (fun g => g.map Char.toLower)) := by
  intro gs
  induction gs with
  | nil => intro _; rfl
  | cons g gs ih =>
      intro hg
      have hgood := hg g (List.mem_cons_self g gs)
      have hg2 : ∀ g0 ∈ gs, goodTag g0 :=
        fun g0 h0 => hg g0 (List.mem_cons_of_mem g h0)
      have hie : (gs.map (fun g0 => g0.map Char.toLower)).isEmpty =
          gs.isEmpty := by
        cases gs <;> rfl
      rw [List.map_cons, jsonBody, jsonBody, List.map_append, List.map_append,
        jsonEscape_id g hgood, jsonEscape_id _ (goodTag_lower hgood),
        ih hg2, hie]
      simp [apply_ite (List.map Char.toLower)]

/-- Helper: the serialized tag column commutes with ASCII lowercasing, for
alphanumeric tags. -/
theorem jsonTags_lower (gs : List (List Char)) (hg : ∀ g ∈ gs, goodTag g) :
    (jsonTags gs).map Char.toLower =
      jsonTags (gs.map (fun g => g.map Char.toLower)) := by
  simp [jsonTags, jsonBody_lower gs hg]

/-- Helper: one requested tag LIKE-matches the serialized column exactly
when some question tag equals it up to ASCII case. -/
theorem sqliteLike_tag_iff (t : List Char) (qtags : List (List Char))
    (ht : goodTag t) (hg : ∀ g ∈ qtags, goodTag g) :
    sqliteLike ('%' :: '"' :: (t ++ ['"', '%'])) (jsonTags qtags) = true ↔
      ∃ g ∈ qtags, t.map Char.toLower = g.map Char.toLower := by
  unfold sqliteLike
  have hpat : ('%' :: '"' :: (t ++ ['"', '%'])).map Char.toLower =
      '%' :: (('"' :: (t.map Char.toLower ++ ['"'])) ++ ['%']) := by
    simp
  have hnw : ∀ c ∈ '"' :: (t.map Char.toLower ++ ['"']),
      c ≠ '%' ∧ c ≠ '_' := by
    intro c hc
    rcases List.mem_cons.mp hc with rfl | hc2
    · exact ⟨by decide, by decide⟩
    · rcases List.mem_append.mp hc2 with hc3 | hc3
      · have := goodTag_lower ht c hc3
        exact ⟨alphanum_ne c '%' this (by decide),
          alphanum_ne c '_' this (by decide)⟩
      · rw [List.mem_singleton.mp hc3]
        exact ⟨by decide, by decide⟩
  rw [hpat, jsonTags_lower qtags hg, likeRaw_infix_iff _ hnw,
    quoted_infix_iff_mem _ _ (goodTag_lower ht)
      (by intro g0 hg0
          rw [List.mem_map] at hg0
          obtain ⟨g1, hg1, rfl⟩ := hg0
          exact goodTag_lower (hg g1 hg1)),
    List.mem_map]
  constructor
  · rintro ⟨g, hgm, heq⟩
    exact ⟨g, hgm, heq.symm⟩
  · rintro ⟨g, hgm, heq⟩
    exact ⟨g, hgm, heq.symm⟩

/-- C6 counterexample: the requested tag "E_2" LIKE-matches a question
tagged "EC2" (the `_` wildcard), and the requested tag "ec2" matches it too
(SQLite LIKE is ASCII-case-insensitive), although neither requested tag set
intersects the question's tag set. -/
theorem tag_filter_counterexample :
    tag_filter_match [ "E_2".toList] [ "EC2".toList] = true ∧
    "E_2".toList ∉ [ "EC2".toList] ∧
    tag_filter_match [ "ec2".toList] [ "EC2".toList] = true ∧
    "ec2".toList ∉ [ "EC2".toList] := by decide

/-- C6 amended: for requested and question tags made of ASCII letters and
digits only, the tag filter accepts a question exactly when some question
tag equals some requested tag up to ASCII case (SQLite LIKE is ASCII
case-insensitive); the same LIKE clause is used by every filter mode. -/
theorem tag_filter_match_iff (tags qtags : List (List Char))
    (ht : ∀ t ∈ tags, goodTag t) (hg : ∀ g ∈ qtags, goodTag g) :
    tag_filter_match tags qtags = true ↔
      ∃ t ∈ tags, ∃ g ∈ qtags,
        t.map Char.toLower = g.map Char.toLower := by
  unfold tag_filter_match
  rw [List.any_eq_true]
  constructor
  · rintro ⟨t, htm, hlike⟩
    obtain ⟨g, hgm, heq⟩ :=
      (sqliteLike_tag_iff t qtags (ht t htm) hg).mp hlike
    exact ⟨t, htm, g, hgm, heq⟩
  · rintro ⟨t, htm, g, hgm, heq⟩
    exact ⟨t, htm, (sqliteLike_tag_iff t qtags (ht t htm) hg).mpr
      ⟨g, hgm, heq⟩⟩

/-- Witness for C6's amended claim: requesting "EC2" matches a question
tagged S3 and EC2. -/
theorem tag_filter_match_iff_witness :
    tag_filter_match [ "EC2".toList] [ "S3".toList, "EC2".toList] = true :=
  (tag_filter_match_iff [ "EC2".toList] [ "S3".toList, "EC2".toList]
      (by decide) (by decide)).mpr
    ⟨"EC2".toList, by decide, "EC2".toList, by decide, by decide⟩

end AWSQuiz
